import Mathlib

/-!
Verification of the profile-delta engine of this repository
(src/py/profile_delta.py with helpers from src/py/tools_lxml.py).

The engine compares a source and a target Salesforce profile document and
emits a delta document granting the accesses present in target but not in
source.  Documents are XML trees; the engine works family by family over a
fixed schema table PARENTS mapping each element family to its key child
(used by fetch and extract) and its gate child (used by prune).

Embedding notes:
  - An lxml element is modelled as a finite tree with a tag, optional text
    and an ordered list of children.  Namespace handling in the code
    (namespace_declare / namespace_prepend of tools_lxml.py) only changes
    the string used to address a tag and is uniform over a document, so tag
    matching is modelled as plain string equality on tags.
  - lxml mutation is modelled functionally: an operation that mutates a
    tree in place becomes a function returning the new tree, and the
    top-level flow threads the documents explicitly (see RunState below).
  - Python sets of strings are modelled as Finset String.
  - PARENTS is a Python dict; its iteration order is a fixed enumeration of
    its eight entries.  The model lists them in the order they are written
    in the source; no claim depends on that order.
-/

namespace ProfileDelta

/-- An XML element as manipulated through lxml: a tag, optional text and an
ordered list of child elements. -/
inductive Elem : Type where
  | node (tag : String) (text : Option String) (children : List Elem) : Elem

/-- The tag of an element. -/
def Elem.tag : Elem → String
  | .node t _ _ => t

/-- The text of an element (None in Python becomes none). -/
def Elem.text : Elem → Option String
  | .node _ x _ => x

/-- The list of direct children of an element. -/
def Elem.children : Elem → List Elem
  | .node _ _ c => c

mutual

/-- copy.deepcopy on an element: a structurally identical fresh tree.  In
the value semantics of the model a deep copy is the same value; keeping the
function explicit mirrors ExtractElements.do_yield, which appends
deepcopy(parent), never parent itself. -/
def deepcopy : Elem → Elem
  | .node t x c => .node t x (deepcopyList c)

/-- deepcopy lifted to a list of children. -/
def deepcopyList : List Elem → List Elem
  | [] => []
  | e :: es => deepcopy e :: deepcopyList es

end

/-- root.findall(tag): all direct children of root whose tag matches. -/
def findall (root : Elem) (name : String) : List Elem :=
  root.children.filter (fun e => e.tag == name)

/-- parent.find(tag): the first direct child with the tag, if any. -/
def findChild (e : Elem) (name : String) : Option Elem :=
  e.children.find? (fun c => c.tag == name)

/-- The text of the first child with the given tag: some t when the child
exists and its text is non-null, none otherwise. -/
def childTextOpt (name : String) (e : Elem) : Option String :=
  (findChild e name).bind Elem.text

/-- One row of the PARENTS table of profile_delta.py: the family name, the
child at index EXTRACT_CHILD = FETCH_CHILD = 0 and the child at index
PRUNE_CHILD = 1. -/
structure FamilyEntry where
  parent : String
  fetchChild : String
  pruneChild : String
  deriving DecidableEq, Repr

/-- The PARENTS table: element_parent mapped to
[extract_fetch_child, prune_child]; the string None is a place-holder for
not-applicable. -/
def PARENTS : List FamilyEntry :=
  [⟨"applicationVisibilities", "application", "visible"⟩,
   ⟨"classAccesses", "apexClass", "enabled"⟩,
   ⟨"fieldPermissions", "field", "readable"⟩,
   ⟨"layoutAssignments", "layout", "None"⟩,
   ⟨"objectPermissions", "object", "allowRead"⟩,
   ⟨"pageAccesses", "apexPage", "enabled"⟩,
   ⟨"recordTypeVisibilities", "recordType", "visible"⟩,
   ⟨"tabVisibilities", "tab", "visibility"⟩]

/-- The shared traversal FindElements.do: for every direct child of source
matching parent_name, look up its child named child_name; when that child
exists and its text is non-null, the pair (parent, child.text) is passed to
do_yield.  This list is exactly the sequence of do_yield invocations. -/
def foundPairs (source : Elem) (parentName childName : String) :
    List (Elem × String) :=
  (findall source parentName).filterMap
    (fun parent => (childTextOpt childName parent).map (fun tx => (parent, tx)))

/-- FetchElements.do: every yielded child text is added to the name set. -/
def fetchDo (source : Elem) (parentName childName : String)
    (names : Finset String) : Finset String :=
  (foundPairs source parentName childName).foldl
    (fun acc pr => insert pr.2 acc) names

/-- fetch_elements: harvests element names for one family, starting from the
empty set. -/
def fetch_elements (root : Elem) (en : FamilyEntry) : Finset String :=
  fetchDo root en.parent en.fetchChild ∅

/-- The gate test of PruneFalseElements.do_yield:
child_text in (the strings false, None). -/
def pruneGate (t : String) : Bool :=
  t == "false" || t == "None"

/-- A family element is detached by a prune pass with gate child cn exactly
when its cn child exists, has non-null text, and that text passes the gate
test. -/
def prunes (cn : String) (e : Elem) : Bool :=
  (childTextOpt cn e).any pruneGate

/-- PruneFalseElements.do on one family: findall materialises the list of
family elements, then each one whose yielded gate text is the string false
or the string None is detached from the root via parent.getparent().remove.
The net effect on the root is to filter those elements out of its
children. -/
def pruneDo (source : Elem) (parentName childName : String) : Elem :=
  .node source.tag source.text
    (source.children.filter (fun e => !(e.tag == parentName && prunes childName e)))

/-- prune_elements: one prune pass per PARENTS row, each using the row's
prune child, threading the mutated root through. -/
def prune_elements (root : Elem) : Elem :=
  PARENTS.foldl (fun r en => pruneDo r en.parent en.pruneChild) root

/-- diff_elements: fetch source and target name sets for the family and
return the set difference target minus source. -/
def diff_elements (source target : Elem) (en : FamilyEntry) : Finset String :=
  fetch_elements target en \ fetch_elements source en

/-- The elements appended by one ExtractElements.do pass: for every yielded
(parent, child_text) with child_text in the name set, deepcopy(parent). -/
def extractNew (source : Elem) (parentName childName : String)
    (names : Finset String) : List Elem :=
  (foundPairs source parentName childName).filterMap
    (fun pr => if pr.2 ∈ names then some (deepcopy pr.1) else none)

/-- ExtractElements.do: my_target.append(deepcopy(parent)) for every match,
in traversal order. -/
def extractDo (source target : Elem) (parentName childName : String)
    (names : Finset String) : Elem :=
  .node target.tag target.text (target.children ++ extractNew source parentName childName names)

/-- sforce_root of tools_lxml.py: a fresh root element with the given tag in
the fixed metadata namespace and no children. -/
def sforce_root (rootName : String) : Elem :=
  .node rootName none []

/-- extract_elements: creates the output document from target containing the
named elements: starting from a fresh root, for every PARENTS row compute
the family delta via diff_elements and append the matching target elements
via ExtractElements.do. -/
def extract_elements (source_root target_root : Elem) (rootName : String) : Elem :=
  PARENTS.foldl
    (fun root en =>
      extractDo target_root root en.parent en.fetchChild
        (diff_elements source_root target_root en))
    (sforce_root rootName)

/-- Python substring containment (the in operator) on lists of characters. -/
def hasSubChars (needle : List Char) : List Char → Bool
  | [] => needle.isEmpty
  | c :: cs => needle.isPrefixOf (c :: cs) || hasSubChars needle cs

/-- is_profile: the Python test (the string .profile) in profile_path_output,
which is substring containment anywhere in the path, not a suffix test. -/
def is_profile (profile_path_output : String) : Bool :=
  hasSubChars ".profile".data profile_path_output.data

/-- root_name: Profile when is_profile holds of the output path, otherwise
PermissionSet. -/
def root_name (profile_path_output : String) : String :=
  if is_profile profile_path_output then "Profile" else "PermissionSet"

/-- The label injection of main for non-profile outputs: etree.SubElement
creates and appends a label child with text Community Hub Guest; the
following root.append of the same element moves it to the end, so the net
effect is exactly one appended label child. -/
def appendLabel (root : Elem) : Elem :=
  .node root.tag root.text
    (root.children ++ [Elem.node "label" (some "Community Hub Guest") []])

/-- The document built by main from the two pruned roots and the output
path: extract_elements under the chosen root name, plus the label element
when the output is not a profile. -/
def main_build (source_root target_root : Elem) (profile_path_output : String) : Elem :=
  let root := extract_elements source_root target_root (root_name profile_path_output)
  if is_profile profile_path_output then root else appendLabel root

/-- The number of direct children of a document with the given tag. -/
def countTag (doc : Elem) (f : String) : Nat :=
  doc.children.countP (fun e => e.tag == f)

/-- The direct children of a document that belong to family f and whose key
child k carries exactly the text n. -/
def famKeyElems (doc : Elem) (f k n : String) : List Elem :=
  doc.children.filter (fun e => e.tag == f && childTextOpt k e == some n)

/-- The number of direct children that are label elements bearing the
literal text Community Hub Guest. -/
def countGuestLabel (doc : Elem) : Nat :=
  doc.children.countP (fun e => e.tag == "label" && e.text == some "Community Hub Guest")

/-- The three documents alive during a run of main, threaded explicitly:
the (pruned) source, the (pruned) target, and the output being built. -/
structure RunState where
  source : Elem
  target : Elem
  output : Elem

/-- One family round of the delta phase of main: fetch both documents,
diff, and extract into the output.  FetchElements.do_yield only mutates the
accumulating name set, and ExtractElements.do_yield appends
deepcopy(parent) to the output root, so the round leaves source and target
as they are and only grows the output. -/
def delta_step (st : RunState) (en : FamilyEntry) : RunState :=
  { st with
    output := extractDo st.target st.output en.parent en.fetchChild
      (diff_elements st.source st.target en) }

/-- The whole delta phase: one delta_step per PARENTS row. -/
def delta_phase (st : RunState) : RunState :=
  PARENTS.foldl delta_step st

/-- The document-level flow of main as a state machine: prune source and
target in place, build a fresh output root named after the output path, run
the delta phase, and append the label element for non-profile outputs. -/
def run_main (source target : Elem) (profile_path_output : String) : RunState :=
  let st := delta_phase
    ⟨prune_elements source, prune_elements target,
      sforce_root (root_name profile_path_output)⟩
  if is_profile profile_path_output then st
  else { st with output := appendLabel st.output }

/-- What the file at an input path parses to. -/
inductive ParseOutcome : Type where
  | ok (doc : Elem)
  | missingFile
  | malformed

/-- Modelled from the spec and the Python exception taxonomy, which is
outside src/: etree.parse signals a file that cannot be read with IOError,
and a file that is not well-formed XML with XMLSyntaxError, which derives
from SyntaxError and is not an IOError. -/
inductive PyExc : Type where
  | ioError
  | xmlSyntaxError
  deriving DecidableEq

/-- Whether an except IOError clause matches the exception. -/
def PyExc.isIOError : PyExc → Bool
  | .ioError => true
  | .xmlSyntaxError => false

/-- prune_tree: etree.parse followed by prune_elements on the root; a parse
exception propagates to the caller. -/
def prune_tree (o : ParseOutcome) : Except PyExc Elem :=
  match o with
  | .ok doc => .ok (prune_elements doc)
  | .missingFile => .error .ioError
  | .malformed => .error .xmlSyntaxError

/-- How main_prune_source (and the identical main_prune_target) finishes. -/
inductive PruneSourceResult : Type where
  | pruned (doc : Elem)
  | reportAndExitOne
  | uncaughtException (e : PyExc)

/-- main_prune_source: try prune_tree; except IOError print the offending
path and exit(1); any other exception is not matched by the handler and
escapes. -/
def main_prune_source (o : ParseOutcome) : PruneSourceResult :=
  match prune_tree o with
  | .ok d => .pruned d
  | .error e => if e.isIOError then .reportAndExitOne else .uncaughtException e

/-- example_class_access_element of profile_delta.py: appends a
classAccesses element with the given apexClass and enabled texts. -/
def example_class_access_element (root : Elem) (class_name is_enabled : String) : Elem :=
  .node root.tag root.text
    (root.children ++
      [Elem.node "classAccesses" none
        [Elem.node "apexClass" (some class_name) [],
         Elem.node "enabled" (some is_enabled) []]])

/-- example_profile_metadata_source of profile_delta.py. -/
def example_profile_metadata_source : Elem :=
  example_class_access_element
    (example_class_access_element (sforce_root "Profile") "ARTransactionsTest" "false")
    "AccountAddressManager" "true"

/-- example_profile_metadata_target of profile_delta.py. -/
def example_profile_metadata_target : Elem :=
  example_class_access_element
    (example_class_access_element example_profile_metadata_source
      "AccountHierarchyBuilder" "true")
    "TransactionTestData" "false"

/-- The classAccesses row of PARENTS, used as a concrete family below. -/
def classAccessesEntry : FamilyEntry :=
  ⟨"classAccesses", "apexClass", "enabled"⟩

/-- A target document carrying two classAccesses elements with the same
apexClass key, both enabled. -/
def duplicate_key_target : Elem :=
  example_class_access_element
    (example_class_access_element (sforce_root "Profile")
      "AccountHierarchyBuilder" "true")
    "AccountHierarchyBuilder" "true"

/-- A layoutAssignments element that happens to carry a child element
literally tagged None with text false. -/
def odd_layout_assignment : Elem :=
  .node "layoutAssignments" none [.node "None" (some "false") []]

/-- A document holding only odd_layout_assignment. -/
def odd_layout_doc : Elem :=
  .node "Profile" none [odd_layout_assignment]

/-- An ordinary layoutAssignments element: a layout key child and no child
tagged None. -/
def plain_layout_assignment : Elem :=
  .node "layoutAssignments" none [.node "layout" (some "Account-Account Layout") []]

/-- A document holding only plain_layout_assignment. -/
def plain_layout_doc : Elem :=
  .node "Profile" none [plain_layout_assignment]

/-- The layoutAssignments row of PARENTS, whose prune child is the
not-applicable sentinel None. -/
def layoutAssignmentsEntry : FamilyEntry :=
  ⟨"layoutAssignments", "layout", "None"⟩

/-- The first classAccesses element of example_profile_metadata_source: its
apexClass is ARTransactionsTest and its enabled gate reads false. -/
def ar_transactions_access : Elem :=
  .node "classAccesses" none
    [.node "apexClass" (some "ARTransactionsTest") [],
     .node "enabled" (some "false") []]

/-- Whether some PARENTS row detaches the element: the element bears the
row's family tag and its gate child exists with text false or None. -/
def prunedByTable (e : Elem) : Bool :=
  PARENTS.any (fun en => e.tag == en.parent && prunes en.pruneChild e)

mutual

/-- Structural decidable equality on elements. -/
def elemDecEq : (a b : Elem) → Decidable (a = b)
  | .node t1 x1 c1, .node t2 x2 c2 =>
    if h1 : t1 = t2 then
      if h2 : x1 = x2 then
        match elemListDecEq c1 c2 with
        | isTrue h3 => isTrue (by rw [h1, h2, h3])
        | isFalse h3 => isFalse (fun he => by injection he; contradiction)
      else isFalse (fun he => by injection he; contradiction)
    else isFalse (fun he => by injection he; contradiction)

/-- Structural decidable equality on lists of elements. -/
def elemListDecEq : (a b : List Elem) → Decidable (a = b)
  | [], [] => isTrue rfl
  | [], _ :: _ => isFalse (fun h => List.noConfusion h)
  | _ :: _, [] => isFalse (fun h => List.noConfusion h)
  | a :: as, b :: bs =>
    match elemDecEq a b, elemListDecEq as bs with
    | isTrue h1, isTrue h2 => isTrue (by rw [h1, h2])
    | isFalse h1, _ => isFalse (fun h => by injection h; contradiction)
    | _, isFalse h2 => isFalse (fun h => by injection h; contradiction)

end

instance : DecidableEq Elem := elemDecEq

/-! ### Basic structural lemmas -/

@[simp]
theorem Elem.tag_node (t : String) (x : Option String) (c : List Elem) :
    (Elem.node t x c).tag = t := rfl

@[simp]
theorem Elem.text_node (t : String) (x : Option String) (c : List Elem) :
    (Elem.node t x c).text = x := rfl

@[simp]
theorem Elem.children_node (t : String) (x : Option String) (c : List Elem) :
    (Elem.node t x c).children = c := rfl

@[simp]
theorem Elem.node_eta (e : Elem) : Elem.node e.tag e.text e.children = e := by
  cases e; rfl

mutual

theorem deepcopy_eq : ∀ e : Elem, deepcopy e = e
  | .node t x c => by rw [deepcopy, deepcopyList_eq c]

theorem deepcopyList_eq : ∀ l : List Elem, deepcopyList l = l
  | [] => rfl
  | e :: es => by rw [deepcopyList, deepcopy_eq e, deepcopyList_eq es]

end

/-! ### The shared traversal -/

theorem mem_findall {root : Elem} {pn : String} {e : Elem} :
    e ∈ findall root pn ↔ e ∈ root.children ∧ e.tag = pn := by
  simp [findall, List.mem_filter]

/-- The pairs yielded by FindElements.do are exactly the family elements
whose named child exists with non-null text, paired with that text. -/
theorem mem_foundPairs {root : Elem} {pn cn : String} {p : Elem} {tx : String} :
    (p, tx) ∈ foundPairs root pn cn ↔
      p ∈ root.children ∧ p.tag = pn ∧ childTextOpt cn p = some tx := by
  simp only [foundPairs, List.mem_filterMap, Option.map_eq_some', Prod.mk.injEq]
  constructor
  · rintro ⟨a, ha, tx2, htx, rfl, rfl⟩
    exact ⟨(mem_findall.mp ha).1, (mem_findall.mp ha).2, htx⟩
  · rintro ⟨hmem, htag, htx⟩
    exact ⟨p, mem_findall.mpr ⟨hmem, htag⟩, tx, htx, rfl, rfl⟩

theorem foundPairs_fst_mem {root : Elem} {pn cn : String} {pr : Elem × String}
    (h : pr ∈ foundPairs root pn cn) :
    pr.1 ∈ root.children ∧ pr.1.tag = pn ∧ childTextOpt cn pr.1 = some pr.2 := by
  obtain ⟨p, tx⟩ := pr
  exact mem_foundPairs.mp h

/-! ### Fetch -/

theorem mem_foldl_insert (l : List (Elem × String)) (acc : Finset String) (x : String) :
    x ∈ l.foldl (fun a pr => insert pr.2 a) acc ↔ x ∈ acc ∨ ∃ p, (p, x) ∈ l := by
  induction l generalizing acc with
  | nil => simp
  | cons pr tl ih =>
    rw [List.foldl_cons, ih]
    simp only [Finset.mem_insert, List.mem_cons]
    constructor
    · rintro (⟨rfl | hacc⟩ | ⟨p, hp⟩)
      · exact Or.inr ⟨pr.1, Or.inl rfl⟩
      · exact Or.inl hacc
      · exact Or.inr ⟨p, Or.inr hp⟩
    · rintro (hacc | ⟨p, hp | hp⟩)
      · exact Or.inl (Or.inr hacc)
      · exact Or.inl (Or.inl (by rw [← hp]))
      · exact Or.inr ⟨p, hp⟩

/-- A name is fetched for a family exactly when some family element carries
it as the non-null text of the key child. -/
theorem mem_fetch_elements {root : Elem} {en : FamilyEntry} {x : String} :
    x ∈ fetch_elements root en ↔
      ∃ p, p ∈ root.children ∧ p.tag = en.parent ∧
        childTextOpt en.fetchChild p = some x := by
  rw [fetch_elements, fetchDo, mem_foldl_insert]
  simp only [Finset.not_mem_empty, false_or]
  constructor
  · rintro ⟨p, hp⟩
    exact ⟨p, mem_foundPairs.mp hp⟩
  · rintro ⟨p, h1, h2, h3⟩
    exact ⟨p, mem_foundPairs.mpr ⟨h1, h2, h3⟩⟩

/-- Membership in the per-family delta set, phrased over the documents. -/
theorem mem_diff_elements {s t : Elem} {en : FamilyEntry} {n : String} :
    n ∈ diff_elements s t en ↔
      (∃ p, p ∈ t.children ∧ p.tag = en.parent ∧
        childTextOpt en.fetchChild p = some n) ∧
      ¬ ∃ p, p ∈ s.children ∧ p.tag = en.parent ∧
        childTextOpt en.fetchChild p = some n := by
  rw [diff_elements, Finset.mem_sdiff, mem_fetch_elements, mem_fetch_elements]

/-! ### Prune -/

theorem prune_foldl (l : List FamilyEntry) (r : Elem) :
    l.foldl (fun r en => pruneDo r en.parent en.pruneChild) r =
      .node r.tag r.text
        (r.children.filter
          (fun e => !(l.any (fun en => e.tag == en.parent && prunes en.pruneChild e)))) := by
  induction l generalizing r with
  | nil => simp
  | cons en tl ih =>
    rw [List.foldl_cons, ih, pruneDo]
    simp only [Elem.tag_node, Elem.text_node, Elem.children_node, List.filter_filter]
    congr 1
    apply List.filter_congr
    intro x _
    simp only [List.any_cons, Bool.not_or, Bool.and_comm]

/-- prune_elements filters the direct children: an element survives exactly
when no PARENTS row detaches it; tag and text of the root are untouched. -/
theorem prune_elements_eq (root : Elem) :
    prune_elements root =
      .node root.tag root.text (root.children.filter (fun e => !prunedByTable e)) := by
  rw [prune_elements, prune_foldl]
  rfl

theorem mem_prune_children {root : Elem} {e : Elem} :
    e ∈ (prune_elements root).children ↔ e ∈ root.children ∧ prunedByTable e = false := by
  rw [prune_elements_eq]
  simp [List.mem_filter]

/-- The eight family names of PARENTS are pairwise distinct, so an element
tag identifies at most one PARENTS row. -/
theorem parents_entry_unique {en en2 : FamilyEntry}
    (h : en ∈ PARENTS) (h2 : en2 ∈ PARENTS) (hp : en.parent = en2.parent) :
    en = en2 := by
  fin_cases h <;> fin_cases h2 <;> first | rfl | (exfalso; exact absurd hp (by decide))

/-- For an element carrying a family tag, the table test collapses to that
family's own gate test. -/
theorem prunedByTable_of_tag {e : Elem} {en : FamilyEntry}
    (hen : en ∈ PARENTS) (htag : e.tag = en.parent) :
    prunedByTable e = prunes en.pruneChild e := by
  rw [prunedByTable]
  cases hpr : prunes en.pruneChild e
  · rw [List.any_eq_false]
    intro en2 h2
    cases hpar : e.tag == en2.parent
    · simp
    · have : en = en2 := parents_entry_unique hen h2 (htag ▸ beq_iff_eq.mp hpar)
      simp [← this, hpr]
  · rw [List.any_eq_true]
    exact ⟨en, hen, by simp [htag, hpr]⟩

/-! ### Extract -/

/-- An element lands in one ExtractElements pass exactly when it is a family
element of the source whose key child text is in the name set; appended
elements are deep copies, hence equal to the source elements as trees. -/
theorem mem_extractNew {src : Elem} {pn cn : String} {names : Finset String} {x : Elem} :
    x ∈ extractNew src pn cn names ↔
      ∃ tx, x ∈ src.children ∧ x.tag = pn ∧ childTextOpt cn x = some tx ∧ tx ∈ names := by
  simp only [extractNew, List.mem_filterMap]
  constructor
  · rintro ⟨pr, hpr, hif⟩
    by_cases h : pr.2 ∈ names
    · rw [if_pos h, Option.some_inj, deepcopy_eq] at hif
      subst hif
      obtain ⟨h1, h2, h3⟩ := foundPairs_fst_mem hpr
      exact ⟨pr.2, h1, h2, h3, h⟩
    · rw [if_neg h] at hif
      exact absurd hif (Option.noConfusion)
  · rintro ⟨tx, h1, h2, h3, h4⟩
    refine ⟨(x, tx), mem_foundPairs.mpr ⟨h1, h2, h3⟩, ?_⟩
    rw [if_pos h4, deepcopy_eq]

theorem tag_of_mem_extractNew {src : Elem} {pn cn : String} {names : Finset String}
    {x : Elem} (h : x ∈ extractNew src pn cn names) : x.tag = pn := by
  obtain ⟨tx, _, htag, _, _⟩ := mem_extractNew.mp h
  exact htag

theorem extract_foldl (t : Elem) (g : FamilyEntry → Finset String)
    (l : List FamilyEntry) (r : Elem) :
    l.foldl (fun root en => extractDo t root en.parent en.fetchChild (g en)) r =
      .node r.tag r.text
        (r.children ++
          (l.map (fun en => extractNew t en.parent en.fetchChild (g en))).flatten) := by
  induction l generalizing r with
  | nil => simp
  | cons en tl ih =>
    rw [List.foldl_cons, ih, extractDo]
    simp [List.append_assoc]

/-- The output of extract_elements: a fresh root of the requested name whose
children are the per-family extractions, in PARENTS order. -/
theorem extract_elements_eq (s t : Elem) (rn : String) :
    extract_elements s t rn =
      .node rn none
        ((PARENTS.map
          (fun en => extractNew t en.parent en.fetchChild (diff_elements s t en))).flatten) := by
  rw [extract_elements, extract_foldl]
  rfl

/-- Membership in the output children of extract_elements. -/
theorem mem_extract_children {s t : Elem} {rn : String} {x : Elem} :
    x ∈ (extract_elements s t rn).children ↔
      ∃ en ∈ PARENTS,
        x ∈ extractNew t en.parent en.fetchChild (diff_elements s t en) := by
  rw [extract_elements_eq]
  simp only [Elem.children_node, List.mem_flatten, List.mem_map]
  constructor
  · rintro ⟨l, ⟨en, hen, rfl⟩, hx⟩
    exact ⟨en, hen, hx⟩
  · rintro ⟨en, hen, hx⟩
    exact ⟨_, ⟨en, hen, rfl⟩, hx⟩

theorem flatten_map_eq_of_single {α β : Type} {l : List α} {a : α} (f : α → List β)
    (hmem : a ∈ l) (hnd : l.Nodup) (hz : ∀ b ∈ l, b ≠ a → f b = []) :
    (l.map f).flatten = f a := by
  induction l with
  | nil => cases hmem
  | cons hd tl ih =>
    rw [List.map_cons, List.flatten_cons]
    rcases List.mem_cons.mp hmem with rfl | hmem2
    · have : ∀ l2 ∈ tl.map f, l2 = [] := by
        rintro l2 hl2
        obtain ⟨b, hb, rfl⟩ := List.mem_map.mp hl2
        exact hz b (List.mem_cons_of_mem _ hb)
          (fun hba => (List.nodup_cons.mp hnd).1 (hba ▸ hb))
      rw [List.flatten_eq_nil_iff.mpr this, List.append_nil]
    · have hne : hd ≠ a := fun h => (List.nodup_cons.mp hnd).1 (h ▸ hmem2)
      rw [hz hd (List.mem_cons_self hd tl) hne, List.nil_append]
      exact ih hmem2 (List.nodup_cons.mp hnd).2
        (fun b hb => hz b (List.mem_cons_of_mem _ hb))

theorem parents_nodup : PARENTS.Nodup := by decide

theorem filter_extract_chain (f k n : String) (names : Finset String) (hn : n ∈ names)
    (c : List Elem) :
    (((c.filter (fun e => e.tag == f)).filterMap
        (fun parent => (childTextOpt k parent).map (fun tx => (parent, tx)))).filterMap
        (fun pr => if pr.2 ∈ names then some (deepcopy pr.1) else none)).filter
      (fun e => e.tag == f && childTextOpt k e == some n) =
      c.filter (fun e => e.tag == f && childTextOpt k e == some n) := by
  induction c with
  | nil => rfl
  | cons e c ih =>
    cases h1 : (e.tag == f) with
    | false =>
      simp only [List.filter_cons, h1, Bool.false_and, Bool.false_eq_true, if_false]
      exact ih
    | true =>
      rw [List.filter_cons, if_pos h1, List.filterMap_cons]
      cases h2 : childTextOpt k e with
      | none =>
        simp only [h2, Option.map_none']
        rw [List.filter_cons]
        have : (e.tag == f && childTextOpt k e == some n) = false := by
          rw [h2]
          simp
        rw [this]
        simp only [Bool.false_eq_true, if_false]
        exact ih
      | some tx =>
        simp only [h2, Option.map_some']
        rw [List.filterMap_cons]
        by_cases h3 : tx ∈ names
        · simp only [if_pos h3]
          rw [deepcopy_eq e, List.filter_cons, List.filter_cons, ih]
        · simp only [if_neg h3]
          have h5 : tx ≠ n := fun h => h3 (h ▸ hn)
          rw [List.filter_cons]
          have : (e.tag == f && childTextOpt k e == some n) = false := by
            rw [h2]
            simp [h5]
          rw [this]
          simp only [Bool.false_eq_true, if_false]
          exact ih

/-- For a name in the used name set, one ExtractElements pass contributes
exactly the family elements of the source bearing that key text. -/
theorem filter_extractNew_key (t : Elem) (f k n : String) (names : Finset String)
    (hn : n ∈ names) :
    (extractNew t f k names).filter (fun e => e.tag == f && childTextOpt k e == some n) =
      t.children.filter (fun e => e.tag == f && childTextOpt k e == some n) := by
  have := filter_extract_chain f k n names hn t.children
  simpa [extractNew, foundPairs, findall] using this

/-- For a name in the family delta, the output of extract_elements holds
exactly the family elements of the target bearing that key, as equal
subtrees (the deep copies preserve every child field). -/
theorem famKeyElems_extract {s t : Elem} {rn : String} {en : FamilyEntry} {n : String}
    (hen : en ∈ PARENTS) (hn : n ∈ diff_elements s t en) :
    famKeyElems (extract_elements s t rn) en.parent en.fetchChild n =
      famKeyElems t en.parent en.fetchChild n := by
  rw [famKeyElems, extract_elements_eq, Elem.children_node, List.filter_flatten,
    List.map_map]
  rw [flatten_map_eq_of_single _ hen parents_nodup ?side]
  case side =>
    intro en2 hen2 hne
    simp only [Function.comp_apply, List.filter_eq_nil_iff]
    intro x hx hpx
    have htag2 : x.tag = en2.parent := tag_of_mem_extractNew hx
    simp only [Bool.and_eq_true, beq_iff_eq] at hpx
    exact hne (parents_entry_unique hen2 hen (htag2 ▸ hpx.1))
  simp only [Function.comp_apply]
  exact filter_extractNew_key t en.parent en.fetchChild n _ hn

/-! ### Output assembly and pipeline lemmas -/

theorem extract_children_tag_mem {s t : Elem} {rn : String} {x : Elem}
    (hx : x ∈ (extract_elements s t rn).children) :
    ∃ en ∈ PARENTS, x.tag = en.parent := by
  obtain ⟨en, hen, hxm⟩ := mem_extract_children.mp hx
  exact ⟨en, hen, tag_of_mem_extractNew hxm⟩

theorem parents_no_label : ∀ en ∈ PARENTS, en.parent ≠ "label" := by decide

/-- The extraction never emits label elements: every output child carries a
family tag. -/
theorem extract_countP_label_zero (s t : Elem) (rn : String) (q : Elem → Bool)
    (hq : ∀ e, q e = true → e.tag = "label") :
    (extract_elements s t rn).children.countP q = 0 := by
  rw [List.countP_eq_zero]
  intro a ha hqa
  obtain ⟨en, hen, htag⟩ := extract_children_tag_mem ha
  exact parents_no_label en hen (htag ▸ hq a hqa)

theorem foldl_delta_step_frame (l : List FamilyEntry) (st : RunState) :
    (l.foldl delta_step st).source = st.source ∧
    (l.foldl delta_step st).target = st.target := by
  induction l generalizing st with
  | nil => exact ⟨rfl, rfl⟩
  | cons en tl ih =>
    rw [List.foldl_cons]
    exact ih (delta_step st en)

theorem foldl_delta_step_output (l : List FamilyEntry) (st : RunState) :
    (l.foldl delta_step st).output =
      l.foldl
        (fun root en =>
          extractDo st.target root en.parent en.fetchChild
            (diff_elements st.source st.target en)) st.output := by
  induction l generalizing st with
  | nil => rfl
  | cons en tl ih =>
    rw [List.foldl_cons, List.foldl_cons]
    exact ih (delta_step st en)

/-! ### Claim theorems -/

/-- Claim C1, counterexample: when the target holds two classAccesses
elements with the same apexClass key, that key is in the delta set computed
against an empty source, yet extract_elements appends both copies, so the
output does not contain exactly one element of the family with that key. -/
theorem extract_completeness_counterexample :
    "AccountHierarchyBuilder" ∈
      diff_elements (sforce_root "Profile") duplicate_key_target classAccessesEntry ∧
    (famKeyElems (extract_elements (sforce_root "Profile") duplicate_key_target "Profile")
      "classAccesses" "apexClass" "AccountHierarchyBuilder").length ≠ 1 := by
  decide

/-- Claim C1 (amended): for every family and every name in the computed
delta set, the family elements of the output document bearing that name as
key-child text are exactly the family elements of the target bearing it —
equal subtrees, so each is a deep copy with all original child fields
intact — and there is at least one of them.  The count is one exactly when
the target itself holds one such element; duplicate keys in the target are
copied once each. -/
theorem extract_completeness_amended (s t : Elem) (rn : String) (en : FamilyEntry)
    (n : String) (hen : en ∈ PARENTS) (hn : n ∈ diff_elements s t en) :
    famKeyElems (extract_elements s t rn) en.parent en.fetchChild n =
      famKeyElems t en.parent en.fetchChild n ∧
    1 ≤ (famKeyElems (extract_elements s t rn) en.parent en.fetchChild n).length := by
  have heq := @famKeyElems_extract s t rn en n hen hn
  refine ⟨heq, ?_⟩
  rw [heq]
  obtain ⟨⟨p, hp1, hp2, hp3⟩, -⟩ := mem_diff_elements.mp hn
  have hp : p ∈ famKeyElems t en.parent en.fetchChild n := by
    rw [famKeyElems, List.mem_filter]
    exact ⟨hp1, by simp [hp2, hp3]⟩
  exact List.length_pos_of_mem hp

/-- Witness for C1's amended theorem at the doctest profiles: after pruning,
AccountHierarchyBuilder is in the classAccesses delta and the output holds
its target element exactly. -/
theorem extract_completeness_amended_witness :
    classAccessesEntry ∈ PARENTS ∧
    "AccountHierarchyBuilder" ∈
      diff_elements (prune_elements example_profile_metadata_source)
        (prune_elements example_profile_metadata_target) classAccessesEntry ∧
    (famKeyElems
        (extract_elements (prune_elements example_profile_metadata_source)
          (prune_elements example_profile_metadata_target) "Profile")
        "classAccesses" "apexClass" "AccountHierarchyBuilder" =
      famKeyElems (prune_elements example_profile_metadata_target)
        "classAccesses" "apexClass" "AccountHierarchyBuilder" ∧
    1 ≤ (famKeyElems
        (extract_elements (prune_elements example_profile_metadata_source)
          (prune_elements example_profile_metadata_target) "Profile")
        "classAccesses" "apexClass" "AccountHierarchyBuilder").length) :=
  ⟨by decide, by decide,
    extract_completeness_amended _ _ "Profile" classAccessesEntry
      "AccountHierarchyBuilder" (by decide) (by decide)⟩

/-- Claim C2: extract exclusivity — for every family, no element whose
key-child text appears in the source document's fetch name set for that
family is ever appended to the output document by extract_elements. -/
theorem extract_exclusivity (s t : Elem) (rn : String) (en : FamilyEntry) (n : String)
    (hen : en ∈ PARENTS) (hn : n ∈ fetch_elements s en) :
    famKeyElems (extract_elements s t rn) en.parent en.fetchChild n = [] := by
  rw [famKeyElems, List.filter_eq_nil_iff]
  intro x hx hpx
  simp only [Bool.and_eq_true, beq_iff_eq] at hpx
  obtain ⟨en2, hen2, hxm⟩ := mem_extract_children.mp hx
  have htag2 : x.tag = en2.parent := tag_of_mem_extractNew hxm
  cases parents_entry_unique hen hen2 (hpx.1 ▸ htag2)
  obtain ⟨tx, hx1, hx2, hx3, hx4⟩ := mem_extractNew.mp hxm
  rw [hpx.2, Option.some_inj] at hx3
  rw [← hx3] at hx4
  exact (Finset.mem_sdiff.mp hx4).2 hn

/-- Witness for C2 at the doctest profiles: AccountAddressManager is in the
pruned source fetch set and no output classAccesses element carries it. -/
theorem extract_exclusivity_witness :
    classAccessesEntry ∈ PARENTS ∧
    "AccountAddressManager" ∈
      fetch_elements (prune_elements example_profile_metadata_source) classAccessesEntry ∧
    famKeyElems
      (extract_elements (prune_elements example_profile_metadata_source)
        (prune_elements example_profile_metadata_target) "Profile")
      "classAccesses" "apexClass" "AccountAddressManager" = [] :=
  ⟨by decide, by decide,
    extract_exclusivity _ _ "Profile" classAccessesEntry "AccountAddressManager"
      (by decide) (by decide)⟩

/-- Claim C3: prune exact-string policy — for every document and family
row, pruning detaches a family element exactly when its gate child exists
with non-null text equal, by exact string equality, to false or to None;
any other value, including falsy-looking ones such as the strings 0 and
False, leaves the element in place. -/
theorem prune_exact_string_policy (root : Elem) (en : FamilyEntry) (e : Elem)
    (hen : en ∈ PARENTS) (he : e ∈ root.children) (htag : e.tag = en.parent) :
    e ∉ (prune_elements root).children ↔
      ∃ tx, childTextOpt en.pruneChild e = some tx ∧ (tx = "false" ∨ tx = "None") := by
  rw [mem_prune_children]
  simp only [he, true_and, prunedByTable_of_tag hen htag]
  rw [Bool.not_eq_false, prunes]
  cases h : childTextOpt en.pruneChild e with
  | none => simp
  | some tx => simp [pruneGate]

/-- Witness for C3: the ARTransactionsTest classAccesses element of the
doctest source has gate text false and is detached by prune_elements. -/
theorem prune_exact_string_policy_witness :
    classAccessesEntry ∈ PARENTS ∧
    ar_transactions_access ∈ example_profile_metadata_source.children ∧
    ar_transactions_access.tag = "classAccesses" ∧
    (ar_transactions_access ∉ (prune_elements example_profile_metadata_source).children ↔
      ∃ tx, childTextOpt "enabled" ar_transactions_access = some tx ∧
        (tx = "false" ∨ tx = "None")) :=
  ⟨by decide, by decide, rfl,
    prune_exact_string_policy example_profile_metadata_source classAccessesEntry
      ar_transactions_access (by decide) (by decide) rfl⟩

/-- Claim C4: non-superset diff — for every pair of documents and every
family row, diff_elements returns the set difference of the target fetch
names minus the source fetch names, characterised over the documents; this
holds whether or not the target names form a superset of the source names,
with no case split and no validation (the function is total). -/
theorem diff_non_superset (source target : Elem) (en : FamilyEntry) (n : String) :
    (n ∈ diff_elements source target en ↔
      (∃ p, p ∈ target.children ∧ p.tag = en.parent ∧
        childTextOpt en.fetchChild p = some n) ∧
      ¬ ∃ p, p ∈ source.children ∧ p.tag = en.parent ∧
        childTextOpt en.fetchChild p = some n) ∧
    diff_elements source target en =
      fetch_elements target en \ fetch_elements source en :=
  ⟨mem_diff_elements, rfl⟩

/-- Claim C5: prune idempotence — applying prune_elements to an already
pruned document removes nothing further; the second application returns its
input unchanged. -/
theorem prune_idempotent (root : Elem) :
    prune_elements (prune_elements root) = prune_elements root := by
  rw [prune_elements_eq root, prune_elements_eq]
  simp only [Elem.tag_node, Elem.text_node, Elem.children_node]
  congr 1
  rw [List.filter_filter]
  apply List.filter_congr
  intro x _
  rw [Bool.and_self]

/-- Claim C6, counterexample: the output path
delta.profile.permissionset ends in .permissionset, yet because is_profile
tests substring containment of .profile anywhere in the path, the code
builds a Profile root and appends no label for it. -/
theorem output_root_policy_counterexample :
    List.isSuffixOf ".permissionset".data "delta.profile.permissionset".data = true ∧
    (main_build (sforce_root "Profile") (sforce_root "Profile")
      "delta.profile.permissionset").tag = "Profile" ∧
    (main_build (sforce_root "Profile") (sforce_root "Profile")
        "delta.profile.permissionset").tag ≠ "PermissionSet" ∧
    countTag (main_build (sforce_root "Profile") (sforce_root "Profile")
      "delta.profile.permissionset") "label" = 0 := by
  decide

/-- Claim C6 (amended): the root naming and label injection are decided by
substring containment of .profile in the output path, not by its suffix:
when the path contains .profile the root tag is Profile and no label child
exists; otherwise the root tag is PermissionSet and exactly one label
child is appended, bearing the literal text Community Hub Guest. -/
theorem output_root_policy_amended (s t : Elem) (p : String) :
    (main_build s t p).tag = (if is_profile p then "Profile" else "PermissionSet") ∧
    countTag (main_build s t p) "label" = (if is_profile p then 0 else 1) ∧
    countGuestLabel (main_build s t p) = (if is_profile p then 0 else 1) := by
  cases hp : is_profile p with
  | true =>
    simp only [main_build, root_name, hp, if_true]
    refine ⟨rfl, ?_, ?_⟩
    · exact extract_countP_label_zero s t "Profile" _
        (fun e he => beq_iff_eq.mp he)
    · exact extract_countP_label_zero s t "Profile" _
        (fun e he => by simp only [Bool.and_eq_true, beq_iff_eq] at he; exact he.1)
  | false =>
    simp only [main_build, root_name, hp, Bool.false_eq_true, if_false]
    refine ⟨rfl, ?_, ?_⟩
    · rw [countTag, appendLabel, Elem.children_node, List.countP_append]
      rw [extract_countP_label_zero s t "PermissionSet" _
        (fun e he => beq_iff_eq.mp he)]
      rfl
    · rw [countGuestLabel, appendLabel, Elem.children_node, List.countP_append]
      rw [extract_countP_label_zero s t "PermissionSet" _
        (fun e he => by simp only [Bool.and_eq_true, beq_iff_eq] at he; exact he.1)]
      rfl

/-- Claim C7, counterexample: a layoutAssignments element carrying a child
element literally tagged None with text false is detached by
prune_elements, so layoutAssignments elements do not survive pruning
unconditionally. -/
theorem layout_assignments_survival_counterexample :
    countTag odd_layout_doc "layoutAssignments" = 1 ∧
    countTag (prune_elements odd_layout_doc) "layoutAssignments" = 0 := by
  decide

/-- Claim C7 (amended): a layoutAssignments element survives prune_elements
whenever it has no child tagged None whose text is the string false or the
string None — in particular whenever it has no such gate child at all, the
situation of every real document. -/
theorem layout_assignments_survival_amended (root : Elem) (e : Elem)
    (he : e ∈ root.children) (htag : e.tag = "layoutAssignments")
    (hg : (childTextOpt "None" e).any pruneGate = false) :
    e ∈ (prune_elements root).children := by
  rw [mem_prune_children]
  refine ⟨he, ?_⟩
  have hmem : layoutAssignmentsEntry ∈ PARENTS := by decide
  rw [prunedByTable_of_tag hmem htag]
  exact hg

/-- Witness for C7's amended theorem: an ordinary layoutAssignments element
with only a layout child survives pruning. -/
theorem layout_assignments_survival_amended_witness :
    plain_layout_assignment ∈ plain_layout_doc.children ∧
    plain_layout_assignment.tag = "layoutAssignments" ∧
    (childTextOpt "None" plain_layout_assignment).any pruneGate = false ∧
    plain_layout_assignment ∈ (prune_elements plain_layout_doc).children :=
  ⟨by decide, rfl, by decide,
    layout_assignments_survival_amended plain_layout_doc plain_layout_assignment
      (by decide) rfl (by decide)⟩

/-- Claim C8: frame property — in the state-passing model of main, after the
two prune calls the delta phase (fetch, diff and per-family extraction of
deep copies into the fresh output root) leaves the pruned source and target
exactly as pruning produced them, and the output is precisely the document
main_build assembles from the two pruned inputs; it is the only document
handed to save_tree. -/
theorem post_prune_frame (source target : Elem) (p : String) :
    (run_main source target p).source = prune_elements source ∧
    (run_main source target p).target = prune_elements target ∧
    (run_main source target p).output =
      main_build (prune_elements source) (prune_elements target) p := by
  cases hp : is_profile p with
  | true =>
    simp only [run_main, delta_phase, hp, if_true]
    refine ⟨(foldl_delta_step_frame PARENTS _).1, (foldl_delta_step_frame PARENTS _).2, ?_⟩
    rw [foldl_delta_step_output]
    simp only [main_build, hp, if_true]
    rfl
  | false =>
    simp only [run_main, delta_phase, hp, Bool.false_eq_true, if_false]
    refine ⟨(foldl_delta_step_frame PARENTS _).1, (foldl_delta_step_frame PARENTS _).2, ?_⟩
    show appendLabel _ = _
    rw [foldl_delta_step_output]
    simp only [main_build, hp, Bool.false_eq_true, if_false]
    rfl

/-- Claim C9: the code contradicts the documented handling of malformed
input.  prune_tree is documented to raise IOError whenever the path cannot
be parsed, and main_prune_source catches only IOError (printing the path
and exiting with status one).  A file that exists but is not well-formed
XML raises XMLSyntaxError, which is not an IOError, so the parse failure
escapes the handler as an unhandled exception instead of being handled the
same way as a missing file. -/
theorem malformed_document_uncaught :
    prune_tree ParseOutcome.malformed = Except.error PyExc.xmlSyntaxError ∧
    main_prune_source ParseOutcome.missingFile = PruneSourceResult.reportAndExitOne ∧
    main_prune_source ParseOutcome.malformed =
      PruneSourceResult.uncaughtException PyExc.xmlSyntaxError ∧
    PruneSourceResult.uncaughtException PyExc.xmlSyntaxError ≠
      PruneSourceResult.reportAndExitOne := by
  refine ⟨rfl, rfl, rfl, ?_⟩
  intro h
  exact PruneSourceResult.noConfusion h

/-- Claim C10: traversal-skip invariant — in the shared traversal of
FindElements.do, a family element whose named child is absent or has null
text is silently skipped: no (element, text) pair is ever yielded for it,
removing it changes no yielded pair, fetch builds the same name set with or
without it, a prune pass leaves it in place, and an extract pass copies the
same elements with or without it; its presence causes no error since every
operation is total. -/
theorem traversal_skip (t0 : String) (x0 : Option String) (l₁ l₂ : List Elem)
    (pn cn : String) (e : Elem) (htag : e.tag = pn)
    (hnull : childTextOpt cn e = none) :
    (∀ tx, (e, tx) ∉ foundPairs (Elem.node t0 x0 (l₁ ++ e :: l₂)) pn cn) ∧
    foundPairs (Elem.node t0 x0 (l₁ ++ e :: l₂)) pn cn =
      foundPairs (Elem.node t0 x0 (l₁ ++ l₂)) pn cn ∧
    (∀ acc, fetchDo (Elem.node t0 x0 (l₁ ++ e :: l₂)) pn cn acc =
      fetchDo (Elem.node t0 x0 (l₁ ++ l₂)) pn cn acc) ∧
    e ∈ (pruneDo (Elem.node t0 x0 (l₁ ++ e :: l₂)) pn cn).children ∧
    (∀ names, extractNew (Elem.node t0 x0 (l₁ ++ e :: l₂)) pn cn names =
      extractNew (Elem.node t0 x0 (l₁ ++ l₂)) pn cn names) := by
  have hpairs : foundPairs (Elem.node t0 x0 (l₁ ++ e :: l₂)) pn cn =
      foundPairs (Elem.node t0 x0 (l₁ ++ l₂)) pn cn := by
    simp only [foundPairs, findall, Elem.children_node, List.filter_append,
      List.filter_cons, htag, beq_self_eq_true, if_true, List.filterMap_append,
      List.filterMap_cons, hnull, Option.map_none']
  refine ⟨?_, hpairs, ?_, ?_, ?_⟩
  · intro tx h
    rw [(mem_foundPairs.mp h).2.2] at hnull
    exact Option.noConfusion hnull
  · intro acc
    rw [fetchDo, fetchDo, hpairs]
  · rw [pruneDo]
    simp only [Elem.children_node]
    rw [List.mem_filter]
    refine ⟨List.mem_append_right l₁ (List.mem_cons_self e l₂), ?_⟩
    rw [prunes, hnull]
    simp
  · intro names
    rw [extractNew, extractNew, hpairs]

/-- Witness for C10: an empty classAccesses element (no apexClass child) in
a one-element document yields no pair, survives a prune pass keyed on
apexClass, and contributes nothing to an extract pass. -/
theorem traversal_skip_witness :
    (Elem.node "classAccesses" none []).tag = "classAccesses" ∧
    childTextOpt "apexClass" (Elem.node "classAccesses" none []) = none ∧
    ((Elem.node "classAccesses" none [], "AccountHierarchyBuilder") ∉
      foundPairs (Elem.node "Profile" none
        ([] ++ Elem.node "classAccesses" none [] :: [])) "classAccesses" "apexClass") ∧
    Elem.node "classAccesses" none [] ∈
      (pruneDo (Elem.node "Profile" none
        ([] ++ Elem.node "classAccesses" none [] :: [])) "classAccesses" "apexClass").children ∧
    extractNew (Elem.node "Profile" none
        ([] ++ Elem.node "classAccesses" none [] :: [])) "classAccesses" "apexClass" ∅ =
      extractNew (Elem.node "Profile" none ([] ++ [])) "classAccesses" "apexClass" ∅ := by
  have h := traversal_skip "Profile" none [] [] "classAccesses" "apexClass"
    (Elem.node "classAccesses" none []) rfl rfl
  exact ⟨rfl, rfl, h.1 "AccountHierarchyBuilder", h.2.2.2.1, h.2.2.2.2 ∅⟩

end ProfileDelta
